import Mathlib

/-!
# A verification development for the `assemble` dependency-injection container

The source is a small DI container (`Factory` in `src/assemble.ts`): callers
register entries — a constructible class (with optional `isSingleton` flag
and optional ordered dependency list), a function (with optional dependency
list), or a literal value under a string token — and later retrieve resolved
values with `Factory.get`.  `get` scans the registry for the first entry
whose `type` key `===` the requested token, auto-registers an annotated class
on a lookup miss, throws when nothing matches, and otherwise dispatches on
the entry shape: class entries consult and fill a singleton cache, function
entries re-invoke each time, value entries return the stored literal.

## Embedding choices

* JavaScript reference identity for class and function keys is modeled by a
  `Nat` identity; string tokens compare by value, exactly as `===` does.
* Constructed instances and function invocations are modeled by `Value.obj`
  and `Value.res`, each carrying a freshness stamp drawn from a counter in
  the factory state: two separately constructed instances get distinct
  stamps, which is the embedding of JS reference inequality of fresh objects.
* The unbounded recursion of `get` (the source has no cycle guard and
  documents stack exhaustion on circular dependencies) is modeled by a fuel
  parameter; exhausted fuel is the distinguished `Err.stackOverflow`, never
  confused with the `NotRegistered` error the code throws.
* A thrown `Error` propagates while the container keeps all mutations made
  so far, so `get` returns `Except Err Value × FactorySt`: the state comes
  back on the error path too.
* The state carries an event trace (instrumentation only: entry into `get`,
  each constructor invocation, each function invocation) so that claims of
  the form "no re-resolution / no re-construction happens" are statements
  about observable events rather than about silence.
-/

set_option maxHeartbeats 1000000

namespace Assemble

/-- `Injectable` from the source: a lookup key is a string token, a
reference to a constructible class, or a reference to a function.  Class and
function references are identified by a `Nat` identity, the embedding of JS
reference identity; `===` on keys becomes decidable equality. -/
inductive Injectable where
  | str (s : String)
  | cls (id : Nat)
  | fn (id : Nat)
  deriving DecidableEq, Repr

/-- Runtime values: a literal (modeled as a string), a constructed instance
`obj cid stamp args` (class identity, freshness stamp, the positional
constructor arguments it received), or a function result
`res fid stamp args` (function identity, invocation stamp, the positional
arguments it was invoked with). -/
inductive Value where
  | lit (s : String)
  | obj (cid : Nat) (stamp : Nat) (args : List Value)
  | res (fid : Nat) (stamp : Nat) (args : List Value)
  deriving Repr

/-- JS truthiness of a cached value, for the `if (item) return item;` check:
a constructed object is always truthy; the empty string literal is falsy. -/
def Value.truthy : Value → Bool
  | .lit s => s != ""
  | .obj _ _ _ => true
  | .res _ _ _ => true

/-- `ItemToAssemble`: one registry entry, `type` being the lookup key the
source stores alongside the payload.  The source dispatches on the presence
of a `class` / `function` / `token` field; the tagged union makes that
dispatch exhaustive.  `isSingleton` and `dependencies` are optional fields
(`none` = absent, the source tests `isSingleton !== false` and
`dependencies?.map(...) ?? []`). -/
inductive Entry where
  | clsE (type : Injectable) (cid : Nat) (isSingleton : Option Bool)
      (dependencies : Option (List Injectable))
  | fnE (type : Injectable) (fid : Nat) (dependencies : Option (List Injectable))
  | valE (type : Injectable) (token : String) (value : Value)
  deriving Repr

/-- The lookup key of an entry (the `type` field). -/
def Entry.type : Entry → Injectable
  | .clsE ty _ _ _ => ty
  | .fnE ty _ _ => ty
  | .valE ty _ _ => ty

/-- Instrumentation events: entry into `get` with the requested key, a
constructor invocation with its positional arguments, a function invocation
with its positional arguments. -/
inductive Event where
  | resolve (key : Injectable)
  | construct (cid : Nat) (args : List Value)
  | invoke (fid : Nat) (args : List Value)
  deriving Repr

/-- The state of one `Factory` instance: the append-only `#registry`, the
`#singletons` map (an association list with JS-`Map.set` semantics), the
freshness counter for newly created instances / invocation results, and the
instrumentation trace (most recent event first). -/
structure FactorySt where
  registry : List Entry
  singletons : List (Injectable × Value)
  nextStamp : Nat
  trace : List Event
  deriving Repr

/-- `new Factory()`: empty registry, empty singleton cache. -/
def newFactory : FactorySt :=
  { registry := [], singletons := [], nextStamp := 0, trace := [] }

/-- `this.#registry.find((item) => item.type === token)`: first entry in
registration order whose key equals the token. -/
def findEntry : List Entry → Injectable → Option Entry
  | [], _ => none
  | e :: r, k => if e.type = k then some e else findEntry r k

/-- `Map.get` on the singleton cache. -/
def mapGet : List (Injectable × Value) → Injectable → Option Value
  | [], _ => none
  | p :: r, k => if p.1 = k then some p.2 else mapGet r k

/-- `Map.set` on the singleton cache: replace the existing binding for the
key, or append a new one. -/
def mapSet : List (Injectable × Value) → Injectable → Value → List (Injectable × Value)
  | [], k, v => [(k, v)]
  | p :: r, k, v => if p.1 = k then (k, v) :: r else p :: mapSet r k v

/-- Append an entry to the registry (`this.#registry.push(...)`). -/
def pushEntry (st : FactorySt) (e : Entry) : FactorySt :=
  { st with registry := st.registry ++ [e] }

/-- Record an instrumentation event. -/
def logEv (st : FactorySt) (ev : Event) : FactorySt :=
  { st with trace := ev :: st.trace }

/-- `token.toString()`: a string token stringifies to itself; class and
function references stringify to their source text, modeled from their
identity. -/
def stringify : Injectable → String
  | .str s => s
  | .cls n => "class #" ++ toString n
  | .fn n => "function #" ++ toString n

/-- The error message built by `get`:
`Provided token: "${token.toString()}" is not registered for dependency injection`. -/
def errMsg (token : Injectable) : String :=
  "Provided token: \"" ++ stringify token ++ "\" is not registered for dependency injection"

/-- The two failure modes of resolution: the `NotRegistered` error the code
throws (`new Error(errMsg)`, carrying the message; the key it was raised for
is kept alongside), and call-stack exhaustion from unbounded recursion on a
dependency cycle, modeled as exhausted fuel. -/
inductive Err where
  | notRegistered (key : Injectable) (msg : String)
  | stackOverflow
  deriving DecidableEq, Repr

/-- The annotation collaborator's side table: per-class dependency metadata,
`token[Symbol.metadata]["cargo:assemble:deps"]`, written by the `@assemble`
class decorator at type-definition time.  Keyed by class identity: the
decorator accepts a `ClassDecoratorContext` only, so neither plain functions
nor string tokens ever carry this metadata. -/
def MetaTable : Type := Nat → Option (List Injectable)

/-- The auto-registration guard in `get`: the token is a constructible-type
reference (`typeof token === "function"`) and decorator metadata with an
array of dependency keys is attached to it.  String tokens fail the
`typeof` check; function references carry no decorator metadata (see
`MetaTable`), so only class references can satisfy the guard. -/
def autoMeta (ann : MetaTable) : Injectable → Option (Nat × List Injectable)
  | .cls n => (ann n).map (fun ds => (n, ds))
  | .str _ => none
  | .fn _ => none

/-- `injectable.dependencies?.map((toInject) => this.get(toInject)) ?? []`:
resolve a dependency list left to right with the given resolver, threading
the factory state, propagating the first failure. -/
def depsAll (g : FactorySt → Injectable → Except Err Value × FactorySt) :
    List Injectable → FactorySt → Except Err (List Value) × FactorySt
  | [], st => (Except.ok [], st)
  | d :: ds, st =>
    match g st d with
    | (Except.error e, st1) => (Except.error e, st1)
    | (Except.ok v, st1) =>
      match depsAll g ds st1 with
      | (Except.error e, st2) => (Except.error e, st2)
      | (Except.ok vs, st2) => (Except.ok (v :: vs), st2)

/-- The lookup phase of `get`: find the first matching entry; on a miss, if
the key is an annotated class reference (see `autoMeta`), synthesize the
class entry from the metadata, push it
(`this.assemble({ class: token, dependencies })` — no `isSingleton` field),
and retry the lookup once. -/
def lookupStep (ann : MetaTable) (st0 : FactorySt) (token : Injectable) :
    Option Entry × FactorySt :=
  match findEntry st0.registry token with
  | some e => (some e, st0)
  | none =>
    match autoMeta ann token with
    | some nd =>
      let st1 := pushEntry st0 (Entry.clsE token nd.1 none (some nd.2))
      (findEntry st1.registry token, st1)
    | none => (none, st0)

/-- The singleton-cache consultation of the class branch:
`if (injectable.isSingleton !== false) { const item = this.#singletons.get(injectable.type); if (item) return item; }`;
`some item` is the early cached return, `none` falls through to
construction. -/
def cacheHit (st1 : FactorySt) (ty : Injectable) (sing : Option Bool) : Option Value :=
  if sing = some false then none
  else
    match mapGet st1.singletons ty with
    | some item => if item.truthy then some item else none
    | none => none

/-- The dispatch phase of `get`, on the shape of the found entry, with `g`
the resolver used for the entry's declared dependencies:

* class entry — when `isSingleton !== false`, a truthy cached instance is
  returned immediately (`cacheHit`); otherwise the declared dependencies are
  resolved in declaration order, a fresh instance is constructed with the
  resolved values as positional arguments, and, when `isSingleton !== false`,
  stored in the singleton cache under the entry's key before being returned;
* function entry — dependencies resolved the same way, the function invoked
  with them positionally, its result returned, nothing cached;
* value entry — the stored literal returned directly. -/
def dispatch (g : FactorySt → Injectable → Except Err Value × FactorySt)
    (st1 : FactorySt) : Entry → Except Err Value × FactorySt
  | Entry.clsE ty cid sing deps =>
    match cacheHit st1 ty sing with
    | some item => (Except.ok item, st1)
    | none =>
      match depsAll g (deps.getD []) st1 with
      | (Except.error e, st2) => (Except.error e, st2)
      | (Except.ok vs, st2) =>
        let item := Value.obj cid st2.nextStamp vs
        let st3 : FactorySt :=
          { st2 with nextStamp := st2.nextStamp + 1,
                     trace := Event.construct cid vs :: st2.trace }
        let st4 := if sing = some false then st3
                   else { st3 with singletons := mapSet st3.singletons ty item }
        (Except.ok item, st4)
  | Entry.fnE _ fid deps =>
    match depsAll g (deps.getD []) st1 with
    | (Except.error e, st2) => (Except.error e, st2)
    | (Except.ok vs, st2) =>
      (Except.ok (Value.res fid st2.nextStamp vs),
       { st2 with nextStamp := st2.nextStamp + 1,
                  trace := Event.invoke fid vs :: st2.trace })
  | Entry.valE _ _ v => (Except.ok v, st1)

/-- `Factory.get`: look up (with annotation-based auto-registration as the
fallback, `lookupStep`), fail with the `NotRegistered` error when nothing
matches, otherwise dispatch on the entry shape (`dispatch`), resolving
declared dependencies by recursive calls to `get`.  `fuel` bounds the
recursion depth (the JS call stack). -/
def get (ann : MetaTable) (fuel : Nat) (st : FactorySt) (token : Injectable) :
    Except Err Value × FactorySt :=
  match fuel with
  | 0 => (Except.error Err.stackOverflow, st)
  | f + 1 =>
    let st0 := logEv st (Event.resolve token)
    match lookupStep ann st0 token with
    | (none, st1) => (Except.error (Err.notRegistered token (errMsg token)), st1)
    | (some e, st1) => dispatch (fun s d => get ann f s d) st1 e

/-- The three record shapes accepted by `Factory.assemble`, plus the
bare-class-reference shorthand. -/
inductive ToAssemble where
  | bareClass (cid : Nat)
  | classItem (cid : Nat) (isSingleton : Option Bool)
      (dependencies : Option (List Injectable))
  | valueItem (token : String) (value : Value)
  | funcItem (fid : Nat) (dependencies : Option (List Injectable))
  deriving Repr

/-- `Factory.assemble`: push one registry entry, keyed by the class
reference / the string token / the function reference.  The bare-class
shorthand reads the decorator metadata for the dependency list (absent
metadata leaves `dependencies` undefined) and never sets `isSingleton`. -/
def assembleItem (ann : MetaTable) (st : FactorySt) : ToAssemble → FactorySt
  | .bareClass c => pushEntry st (Entry.clsE (.cls c) c none (ann c))
  | .classItem c s d => pushEntry st (Entry.clsE (.cls c) c s d)
  | .valueItem t v => pushEntry st (Entry.valE (.str t) t v)
  | .funcItem f d => pushEntry st (Entry.fnE (.fn f) f d)

/-- Spec-side relation: each listed dependency key is resolved, in
declaration order, by a recursive call to `get` (the resolver at the inner
stack depth), threading the factory state, and the resolved values are
collected positionally in that same order. -/
inductive SeqResolves (ann : MetaTable) (fuel : Nat) :
    FactorySt → List Injectable → List Value → FactorySt → Prop
  | nil (st : FactorySt) : SeqResolves ann fuel st [] [] st
  | cons {st st1 st2 : FactorySt} {d : Injectable} {ds : List Injectable}
      {v : Value} {vs : List Value} :
      get ann fuel st d = (Except.ok v, st1) →
      SeqResolves ann fuel st1 ds vs st2 →
      SeqResolves ann fuel st (d :: ds) (v :: vs) st2

/-! ## Basic lemmas about the registry scan and the singleton map -/

theorem Entry.type_clsE (ty : Injectable) (cid : Nat) (sing : Option Bool)
    (deps : Option (List Injectable)) : (Entry.clsE ty cid sing deps).type = ty := rfl

theorem findEntry_type {r : List Entry} {k : Injectable} {e : Entry}
    (h : findEntry r k = some e) : e.type = k := by
  induction r with
  | nil => simp [findEntry] at h
  | cons a r ih =>
    by_cases ha : a.type = k
    · simp [findEntry, ha] at h; subst h; exact ha
    · simp [findEntry, ha] at h; exact ih h

theorem findEntry_append_some {r1 : List Entry} {k : Injectable} {e : Entry}
    (h : findEntry r1 k = some e) (r2 : List Entry) :
    findEntry (r1 ++ r2) k = some e := by
  induction r1 with
  | nil => simp [findEntry] at h
  | cons a r ih =>
    by_cases ha : a.type = k
    · simp [findEntry, ha] at h ⊢; exact h
    · simp [findEntry, ha] at h ⊢; exact ih h

theorem findEntry_append_none {r1 : List Entry} {k : Injectable}
    (h : findEntry r1 k = none) (r2 : List Entry) :
    findEntry (r1 ++ r2) k = findEntry r2 k := by
  induction r1 with
  | nil => simp
  | cons a r ih =>
    by_cases ha : a.type = k
    · simp [findEntry, ha] at h
    · simp [findEntry, ha] at h ⊢; exact ih h

theorem findEntry_single_clsE (k : Injectable) (cid : Nat) (sing : Option Bool)
    (deps : Option (List Injectable)) :
    findEntry [Entry.clsE k cid sing deps] k = some (Entry.clsE k cid sing deps) := by
  simp [findEntry, Entry.type]

theorem mapGet_mapSet_self (m : List (Injectable × Value)) (k : Injectable) (v : Value) :
    mapGet (mapSet m k v) k = some v := by
  induction m with
  | nil => simp [mapSet, mapGet]
  | cons p m ih =>
    by_cases hp : p.1 = k
    · simp [mapSet, hp, mapGet]
    · simp [mapSet, hp, mapGet, ih]

theorem mapGet_mapSet_ne (m : List (Injectable × Value)) {k k' : Injectable}
    (v : Value) (h : k' ≠ k) : mapGet (mapSet m k v) k' = mapGet m k' := by
  induction m with
  | nil => simp [mapSet, mapGet, Ne.symm h]
  | cons p m ih =>
    by_cases hp : p.1 = k
    · subst hp
      simp [mapSet, mapGet, h, Ne.symm h]
    · by_cases hp' : p.1 = k'
      · simp [mapSet, hp, mapGet, hp', h]
      · simp [mapSet, hp, mapGet, hp', ih]

@[simp] theorem logEv_registry (st : FactorySt) (ev : Event) :
    (logEv st ev).registry = st.registry := rfl

@[simp] theorem logEv_singletons (st : FactorySt) (ev : Event) :
    (logEv st ev).singletons = st.singletons := rfl

@[simp] theorem logEv_nextStamp (st : FactorySt) (ev : Event) :
    (logEv st ev).nextStamp = st.nextStamp := rfl

@[simp] theorem pushEntry_registry (st : FactorySt) (e : Entry) :
    (pushEntry st e).registry = st.registry ++ [e] := rfl

@[simp] theorem pushEntry_singletons (st : FactorySt) (e : Entry) :
    (pushEntry st e).singletons = st.singletons := rfl

@[simp] theorem pushEntry_nextStamp (st : FactorySt) (e : Entry) :
    (pushEntry st e).nextStamp = st.nextStamp := rfl

/-! ## The lookup phase -/

theorem lookupStep_found {ann : MetaTable} {st0 : FactorySt} {token : Injectable}
    {e : Entry} (h : findEntry st0.registry token = some e) :
    lookupStep ann st0 token = (some e, st0) := by
  simp [lookupStep, h]

theorem lookupStep_auto {ann : MetaTable} {st0 : FactorySt} {token : Injectable}
    {n : Nat} {ds : List Injectable}
    (h : findEntry st0.registry token = none) (ha : autoMeta ann token = some (n, ds)) :
    lookupStep ann st0 token
      = (some (Entry.clsE token n none (some ds)),
         pushEntry st0 (Entry.clsE token n none (some ds))) := by
  simp only [lookupStep, h, ha]
  rw [pushEntry_registry, findEntry_append_none h, findEntry_single_clsE]

theorem lookupStep_none {ann : MetaTable} {st0 : FactorySt} {token : Injectable}
    (h : findEntry st0.registry token = none) (ha : autoMeta ann token = none) :
    lookupStep ann st0 token = (none, st0) := by
  simp [lookupStep, h, ha]

/-- Inversion of the lookup phase: the found entry is keyed by the token and
is found in the resulting registry; the resulting state differs from the
input state only by the appended auto-registered entries. -/
theorem lookupStep_inv {ann : MetaTable} {st0 : FactorySt} {token : Injectable}
    {oe : Option Entry} {st1 : FactorySt}
    (h : lookupStep ann st0 token = (oe, st1)) :
    (∃ l, st1.registry = st0.registry ++ l) ∧
    st1.singletons = st0.singletons ∧ st1.nextStamp = st0.nextStamp ∧
    st1.trace = st0.trace ∧
    (∀ e, oe = some e → findEntry st1.registry token = some e ∧ e.type = token) := by
  rcases hf : findEntry st0.registry token with _ | e0
  · rcases ha : autoMeta ann token with _ | nd
    · rw [lookupStep_none hf ha] at h
      obtain ⟨rfl, rfl⟩ : oe = none ∧ st1 = st0 := by
        constructor <;> simp [Prod.ext_iff] at h <;> tauto
      exact ⟨⟨[], by simp⟩, rfl, rfl, rfl, by intro e he; cases he⟩
    · obtain ⟨n, ds⟩ := nd
      rw [lookupStep_auto hf ha] at h
      obtain ⟨rfl, rfl⟩ :
          oe = some (Entry.clsE token n none (some ds)) ∧
          st1 = pushEntry st0 (Entry.clsE token n none (some ds)) := by
        constructor <;> simp [Prod.ext_iff] at h <;> tauto
      refine ⟨⟨[Entry.clsE token n none (some ds)], by simp⟩, rfl, rfl, rfl, ?_⟩
      intro e he
      obtain rfl : Entry.clsE token n none (some ds) = e := by
        simpa using he
      refine ⟨?_, rfl⟩
      rw [pushEntry_registry, findEntry_append_none hf, findEntry_single_clsE]
  · rw [lookupStep_found hf] at h
    obtain ⟨rfl, rfl⟩ : oe = some e0 ∧ st1 = st0 := by
      constructor <;> simp [Prod.ext_iff] at h <;> tauto
    refine ⟨⟨[], by simp⟩, rfl, rfl, rfl, ?_⟩
    intro e he
    obtain rfl : e0 = e := by simpa using he
    exact ⟨hf, findEntry_type hf⟩

/-! ## Unfolding equations for `get` and `dispatch` -/

theorem get_zero (ann : MetaTable) (st : FactorySt) (token : Injectable) :
    get ann 0 st token = (Except.error Err.stackOverflow, st) := rfl

theorem get_succ (ann : MetaTable) (f : Nat) (st : FactorySt) (token : Injectable) :
    get ann (f + 1) st token
      = match lookupStep ann (logEv st (Event.resolve token)) token with
        | (none, st1) => (Except.error (Err.notRegistered token (errMsg token)), st1)
        | (some e, st1) => dispatch (fun s d => get ann f s d) st1 e := rfl

theorem dispatch_valE (g : FactorySt → Injectable → Except Err Value × FactorySt)
    (st1 : FactorySt) (ty : Injectable) (tok : String) (v : Value) :
    dispatch g st1 (Entry.valE ty tok v) = (Except.ok v, st1) := rfl

theorem cacheHit_some_iff {st1 : FactorySt} {ty : Injectable} {sing : Option Bool}
    {item : Value} :
    cacheHit st1 ty sing = some item ↔
      sing ≠ some false ∧ mapGet st1.singletons ty = some item ∧ item.truthy = true := by
  constructor
  · intro h
    by_cases hs : sing = some false
    · simp [cacheHit, hs] at h
    · rcases hm : mapGet st1.singletons ty with _ | it
      · simp [cacheHit, hs, hm] at h
      · by_cases ht : it.truthy = true
        · have hit : it = item := by simpa [cacheHit, hs, hm, ht] using h
          subst hit
          refine ⟨hs, ?_, ht⟩
          simp [hm]
        · simp [cacheHit, hs, hm, ht] at h
  · rintro ⟨hs, hm, ht⟩
    simp [cacheHit, hs, hm, ht]

theorem cacheHit_of_false {st1 : FactorySt} {ty : Injectable} :
    cacheHit st1 ty (some false) = none := by
  simp [cacheHit]

theorem cacheHit_of_mapGet_none {st1 : FactorySt} {ty : Injectable} {sing : Option Bool}
    (h : mapGet st1.singletons ty = none) : cacheHit st1 ty sing = none := by
  by_cases hs : sing = some false <;> simp [cacheHit, hs, h]

theorem dispatch_clsE_hit {g : FactorySt → Injectable → Except Err Value × FactorySt}
    {st1 : FactorySt} {ty : Injectable} {cid : Nat} {sing : Option Bool}
    {deps : Option (List Injectable)} {item : Value}
    (h : cacheHit st1 ty sing = some item) :
    dispatch g st1 (Entry.clsE ty cid sing deps) = (Except.ok item, st1) := by
  simp [dispatch, h]

theorem dispatch_clsE_err {g : FactorySt → Injectable → Except Err Value × FactorySt}
    {st1 st2 : FactorySt} {ty : Injectable} {cid : Nat} {sing : Option Bool}
    {deps : Option (List Injectable)} {err : Err}
    (h : cacheHit st1 ty sing = none)
    (hd : depsAll g (deps.getD []) st1 = (Except.error err, st2)) :
    dispatch g st1 (Entry.clsE ty cid sing deps) = (Except.error err, st2) := by
  simp [dispatch, h, hd]

theorem dispatch_clsE_ok {g : FactorySt → Injectable → Except Err Value × FactorySt}
    {st1 st2 : FactorySt} {ty : Injectable} {cid : Nat} {sing : Option Bool}
    {deps : Option (List Injectable)} {vs : List Value}
    (h : cacheHit st1 ty sing = none)
    (hd : depsAll g (deps.getD []) st1 = (Except.ok vs, st2)) :
    dispatch g st1 (Entry.clsE ty cid sing deps)
      = (Except.ok (Value.obj cid st2.nextStamp vs),
         if sing = some false then
           { st2 with nextStamp := st2.nextStamp + 1,
                      trace := Event.construct cid vs :: st2.trace }
         else
           { st2 with nextStamp := st2.nextStamp + 1,
                      trace := Event.construct cid vs :: st2.trace,
                      singletons :=
                        mapSet st2.singletons ty (Value.obj cid st2.nextStamp vs) }) := by
  by_cases hs : sing = some false
  · subst hs
    simp [dispatch, cacheHit_of_false, hd]
  · simp [dispatch, h, hd, hs]

theorem dispatch_fnE_err {g : FactorySt → Injectable → Except Err Value × FactorySt}
    {st1 st2 : FactorySt} {ty : Injectable} {fid : Nat}
    {deps : Option (List Injectable)} {err : Err}
    (hd : depsAll g (deps.getD []) st1 = (Except.error err, st2)) :
    dispatch g st1 (Entry.fnE ty fid deps) = (Except.error err, st2) := by
  simp [dispatch, hd]

theorem dispatch_fnE_ok {g : FactorySt → Injectable → Except Err Value × FactorySt}
    {st1 st2 : FactorySt} {ty : Injectable} {fid : Nat}
    {deps : Option (List Injectable)} {vs : List Value}
    (hd : depsAll g (deps.getD []) st1 = (Except.ok vs, st2)) :
    dispatch g st1 (Entry.fnE ty fid deps)
      = (Except.ok (Value.res fid st2.nextStamp vs),
         { st2 with nextStamp := st2.nextStamp + 1,
                    trace := Event.invoke fid vs :: st2.trace }) := by
  simp [dispatch, hd]

/-! ## Monotonicity: the registry is append-only, the freshness counter
never decreases -/

/-- What one resolution step can do to the container: append registry
entries, never decrease the freshness counter. -/
def Mono (s t : FactorySt) : Prop :=
  (∃ l, t.registry = s.registry ++ l) ∧ s.nextStamp ≤ t.nextStamp

theorem Mono.rfl (s : FactorySt) : Mono s s := ⟨⟨[], by simp⟩, le_refl _⟩

theorem Mono.trans {s t u : FactorySt} (h1 : Mono s t) (h2 : Mono t u) : Mono s u := by
  obtain ⟨⟨l1, hr1⟩, hn1⟩ := h1
  obtain ⟨⟨l2, hr2⟩, hn2⟩ := h2
  exact ⟨⟨l1 ++ l2, by rw [hr2, hr1, List.append_assoc]⟩, le_trans hn1 hn2⟩

theorem findEntry_of_mono {s t : FactorySt} {k : Injectable} {e : Entry}
    (h : Mono s t) (hf : findEntry s.registry k = some e) :
    findEntry t.registry k = some e := by
  obtain ⟨⟨l, hl⟩, -⟩ := h
  rw [hl]
  exact findEntry_append_some hf l

/-- Generic preservation of a reflexive-transitive relation along
`depsAll`: if each single resolution relates its input state to its output
state, so does the whole left-to-right dependency resolution (on both the
success and the propagated-failure path). -/
theorem depsAll_rel {g : FactorySt → Injectable → Except Err Value × FactorySt}
    {P : FactorySt → FactorySt → Prop}
    (hrefl : ∀ s, P s s) (htrans : ∀ {s t u}, P s t → P t u → P s u)
    (hg : ∀ s d, P s ((g s d).2)) :
    ∀ (ds : List Injectable) (st : FactorySt), P st ((depsAll g ds st).2) := by
  intro ds
  induction ds with
  | nil => intro st; simpa [depsAll] using hrefl st
  | cons d ds ih =>
    intro st
    rcases h1 : g st d with ⟨r1, st1⟩
    have p1 : P st st1 := by have := hg st d; rwa [h1] at this
    cases r1 with
    | error err => simpa [depsAll, h1] using p1
    | ok v =>
      rcases h2 : depsAll g ds st1 with ⟨r2, st2⟩
      have p2 : P st1 st2 := by have := ih st1; rwa [h2] at this
      cases r2 with
      | error err => simpa [depsAll, h1, h2] using htrans p1 p2
      | ok vs => simpa [depsAll, h1, h2] using htrans p1 p2

theorem dispatch_mono {g : FactorySt → Injectable → Except Err Value × FactorySt}
    (hg : ∀ s d, Mono s ((g s d).2)) (st1 : FactorySt) (e : Entry) :
    Mono st1 ((dispatch g st1 e).2) := by
  have hdeps : ∀ (ds : List Injectable) (st : FactorySt), Mono st ((depsAll g ds st).2) :=
    depsAll_rel Mono.rfl (fun h1 h2 => Mono.trans h1 h2) hg
  cases e with
  | valE ty tok v => rw [dispatch_valE]; exact Mono.rfl _
  | fnE ty fid deps =>
    rcases hd : depsAll g (deps.getD []) st1 with ⟨r2, st2⟩
    have p : Mono st1 st2 := by have := hdeps (deps.getD []) st1; rwa [hd] at this
    cases r2 with
    | error err => rw [dispatch_fnE_err hd]; exact p
    | ok vs =>
      rw [dispatch_fnE_ok hd]
      exact Mono.trans p ⟨⟨[], by simp⟩, by simp⟩
  | clsE ty cid sing deps =>
    rcases hh : cacheHit st1 ty sing with _ | item
    · rcases hd : depsAll g (deps.getD []) st1 with ⟨r2, st2⟩
      have p : Mono st1 st2 := by have := hdeps (deps.getD []) st1; rwa [hd] at this
      cases r2 with
      | error err => rw [dispatch_clsE_err hh hd]; exact p
      | ok vs =>
        rw [dispatch_clsE_ok hh hd]
        refine Mono.trans p ?_
        by_cases hs : sing = some false <;> simp [hs, Mono]
    · rw [dispatch_clsE_hit hh]; exact Mono.rfl _

theorem get_mono (ann : MetaTable) :
    ∀ (fuel : Nat) (st : FactorySt) (token : Injectable),
      Mono st ((get ann fuel st token).2) := by
  intro fuel
  induction fuel with
  | zero => intro st token; rw [get_zero]; exact Mono.rfl st
  | succ f ih =>
    intro st token
    rw [get_succ]
    rcases hls : lookupStep ann (logEv st (Event.resolve token)) token with ⟨oe, st1⟩
    obtain ⟨⟨l, hl⟩, hsing, hns, -, -⟩ := lookupStep_inv hls
    have p0 : Mono st st1 := ⟨⟨l, by rw [hl]; simp⟩, by rw [hns]; simp⟩
    cases oe with
    | none => simpa using p0
    | some e =>
      simp only
      exact Mono.trans p0 (dispatch_mono (fun s d => ih s d) st1 e)

/-! ## Dependency resolution is exactly the declaration-order chain of
recursive `get` calls -/

theorem depsAll_ok_iff_seqResolves {ann : MetaTable} {f : Nat} :
    ∀ {ds : List Injectable} {st st' : FactorySt} {vs : List Value},
      depsAll (fun s d => get ann f s d) ds st = (Except.ok vs, st') ↔
        SeqResolves ann f st ds vs st' := by
  intro ds
  induction ds with
  | nil =>
    intro st st' vs
    constructor
    · intro h
      simp only [depsAll, Prod.mk.injEq] at h
      obtain ⟨h1, rfl⟩ := h
      obtain rfl : vs = [] := by simpa using h1.symm
      exact SeqResolves.nil st
    · rintro ⟨⟩
      simp [depsAll]
  | cons d ds ih =>
    intro st st' vs
    constructor
    · intro h
      rcases h1 : get ann f st d with ⟨r1, st1⟩
      cases r1 with
      | error err => simp [depsAll, h1] at h
      | ok v =>
        rcases h2 : depsAll (fun s d => get ann f s d) ds st1 with ⟨r2, st2⟩
        cases r2 with
        | error err => simp [depsAll, h1, h2] at h
        | ok vs2 =>
          simp only [depsAll, h1, h2, Prod.mk.injEq] at h
          obtain ⟨h3, rfl⟩ := h
          obtain rfl : vs = v :: vs2 := by simpa using h3.symm
          exact SeqResolves.cons h1 (ih.mp h2)
    · rintro (_ | ⟨h1, h2⟩)
      rename_i st1 v vs2
      have h2' := ih.mpr h2
      simp [depsAll, h1, h2']

/-! ## The singleton-cache invariant -/

/-- The singleton-cache invariant: every cached binding is a constructed
instance (`Value.obj`) of the class held by the first-registered matching
entry for its key, and that entry's `isSingleton` is not `false`. -/
def CacheOK (st : FactorySt) : Prop :=
  ∀ k v, mapGet st.singletons k = some v →
    ∃ cid stamp args sing ds,
      v = Value.obj cid stamp args ∧
      findEntry st.registry k = some (Entry.clsE k cid sing ds) ∧
      sing ≠ some false

theorem pairEq {α β : Type} {a a' : α} {b b' : β} (h : (a, b) = (a', b')) :
    a = a' ∧ b = b' := by
  cases h; exact ⟨rfl, rfl⟩

/-- `CacheOK` only looks at the registry and the singleton map, so it
transfers along state updates that keep both. -/
theorem cacheOK_of_same {st st' : FactorySt} (h : CacheOK st)
    (hreg : st'.registry = st.registry) (hsing : st'.singletons = st.singletons) :
    CacheOK st' := by
  intro k v hm
  rw [hsing] at hm
  obtain ⟨cid, stamp, args, sing, ds, hv, hf, hs⟩ := h k v hm
  exact ⟨cid, stamp, args, sing, ds, hv, by rw [hreg]; exact hf, hs⟩

theorem cacheOK_newFactory : CacheOK newFactory := by
  intro k v h
  simp [newFactory, mapGet] at h

theorem cacheOK_pushEntry {st : FactorySt} (h : CacheOK st) (e : Entry) :
    CacheOK (pushEntry st e) := by
  intro k v hm
  rw [pushEntry_singletons] at hm
  obtain ⟨cid, stamp, args, sing, ds, hv, hf, hs⟩ := h k v hm
  exact ⟨cid, stamp, args, sing, ds, hv,
    by rw [pushEntry_registry]; exact findEntry_append_some hf [e], hs⟩

theorem cacheOK_logEv {st : FactorySt} (h : CacheOK st) (ev : Event) :
    CacheOK (logEv st ev) := by
  intro k v hm
  rw [logEv_singletons] at hm
  obtain ⟨cid, stamp, args, sing, ds, hv, hf, hs⟩ := h k v hm
  exact ⟨cid, stamp, args, sing, ds, hv, by rw [logEv_registry]; exact hf, hs⟩

/-- A cached value is always truthy (under the invariant): the code's
`if (item) return item` check never rejects a cached instance. -/
theorem cacheOK_truthy {st : FactorySt} (h : CacheOK st) {k : Injectable} {v : Value}
    (hm : mapGet st.singletons k = some v) : v.truthy = true := by
  obtain ⟨cid, stamp, args, -, -, hv, -, -⟩ := h k v hm
  subst hv
  rfl

theorem dispatch_cacheOK {g : FactorySt → Injectable → Except Err Value × FactorySt}
    (hg_cache : ∀ s d, CacheOK s → CacheOK ((g s d).2))
    (hg_mono : ∀ s d, Mono s ((g s d).2))
    {st1 : FactorySt} {e : Entry} (hC : CacheOK st1)
    (hfind : ∀ ty cid sing deps, e = Entry.clsE ty cid sing deps →
      findEntry st1.registry ty = some e) :
    CacheOK ((dispatch g st1 e).2) := by
  have hdepsC : ∀ (ds : List Injectable) (st : FactorySt),
      CacheOK st → CacheOK ((depsAll g ds st).2) :=
    depsAll_rel (P := fun s t => CacheOK s → CacheOK t) (fun _ h => h)
      (fun h1 h2 h => h2 (h1 h)) (fun s d h => hg_cache s d h)
  have hdepsM : ∀ (ds : List Injectable) (st : FactorySt), Mono st ((depsAll g ds st).2) :=
    depsAll_rel Mono.rfl (fun h1 h2 => Mono.trans h1 h2) hg_mono
  cases e with
  | valE ty tok v => rw [dispatch_valE]; exact hC
  | fnE ty fid deps =>
    rcases hd : depsAll g (deps.getD []) st1 with ⟨r2, st2⟩
    have hC2 : CacheOK st2 := by have := hdepsC (deps.getD []) st1 hC; rwa [hd] at this
    cases r2 with
    | error err => rw [dispatch_fnE_err hd]; exact hC2
    | ok vs =>
      rw [dispatch_fnE_ok hd]
      intro k v hm
      exact hC2 k v hm
  | clsE ty cid sing deps =>
    rcases hh : cacheHit st1 ty sing with _ | item
    · rcases hd : depsAll g (deps.getD []) st1 with ⟨r2, st2⟩
      have hC2 : CacheOK st2 := by have := hdepsC (deps.getD []) st1 hC; rwa [hd] at this
      have hM2 : Mono st1 st2 := by have := hdepsM (deps.getD []) st1; rwa [hd] at this
      cases r2 with
      | error err => rw [dispatch_clsE_err hh hd]; exact hC2
      | ok vs =>
        rw [dispatch_clsE_ok hh hd]
        by_cases hs : sing = some false
        · simp only [if_pos hs]
          exact cacheOK_of_same hC2 rfl rfl
        · simp only [if_neg hs]
          intro k v hm
          by_cases hk : k = ty
          · subst hk
            rw [mapGet_mapSet_self] at hm
            obtain rfl : Value.obj cid st2.nextStamp vs = v := by simpa using hm
            have hfind2 : findEntry st2.registry k
                = some (Entry.clsE k cid sing deps) :=
              findEntry_of_mono hM2 (hfind k cid sing deps rfl)
            exact ⟨cid, st2.nextStamp, vs, sing, deps, rfl, hfind2, hs⟩
          · rw [mapGet_mapSet_ne _ _ hk] at hm
            exact hC2 k v hm
    · rw [dispatch_clsE_hit hh]; exact hC

theorem get_cacheOK (ann : MetaTable) :
    ∀ (fuel : Nat) (st : FactorySt) (token : Injectable),
      CacheOK st → CacheOK ((get ann fuel st token).2) := by
  intro fuel
  induction fuel with
  | zero => intro st token h; rw [get_zero]; exact h
  | succ f ih =>
    intro st token h
    rw [get_succ]
    rcases hls : lookupStep ann (logEv st (Event.resolve token)) token with ⟨oe, st1⟩
    have hC0 : CacheOK (logEv st (Event.resolve token)) := cacheOK_logEv h _
    -- the lookup phase either keeps the state or pushes one entry
    have hC1 : CacheOK st1 := by
      rcases hf : findEntry (logEv st (Event.resolve token)).registry token with _ | e0
      · rcases ha : autoMeta ann token with _ | nd
        · rw [lookupStep_none hf ha] at hls
          obtain ⟨-, rfl⟩ := pairEq hls.symm
          exact hC0
        · obtain ⟨n, ds⟩ := nd
          rw [lookupStep_auto hf ha] at hls
          obtain ⟨-, rfl⟩ := pairEq hls.symm
          exact cacheOK_pushEntry hC0 _
      · rw [lookupStep_found hf] at hls
        obtain ⟨-, rfl⟩ := pairEq hls.symm
        exact hC0
    cases oe with
    | none => simpa using hC1
    | some e =>
      simp only
      have hfind : ∀ ty cid sing deps, e = Entry.clsE ty cid sing deps →
          findEntry st1.registry ty = some e := by
        intro ty cid sing deps he
        obtain ⟨-, -, -, -, hsome⟩ := lookupStep_inv hls
        obtain ⟨hfe, hty⟩ := hsome e rfl
        subst he
        rw [Entry.type_clsE] at hty
        subst hty
        exact hfe
      exact dispatch_cacheOK (fun s d => ih s d) (fun s d => get_mono ann f s d)
        hC1 hfind

/-! ## The three top-level paths of `get` -/

theorem get_succ_found {ann : MetaTable} {f : Nat} {st : FactorySt} {token : Injectable}
    {e : Entry} (hf : findEntry st.registry token = some e) :
    get ann (f + 1) st token
      = dispatch (fun s d => get ann f s d) (logEv st (Event.resolve token)) e := by
  rw [get_succ, lookupStep_found (by rwa [logEv_registry])]

theorem get_succ_auto {ann : MetaTable} {f : Nat} {st : FactorySt} {token : Injectable}
    {n : Nat} {ds : List Injectable}
    (hf : findEntry st.registry token = none) (ha : autoMeta ann token = some (n, ds)) :
    get ann (f + 1) st token
      = dispatch (fun s d => get ann f s d)
          (pushEntry (logEv st (Event.resolve token)) (Entry.clsE token n none (some ds)))
          (Entry.clsE token n none (some ds)) := by
  rw [get_succ, lookupStep_auto (by rwa [logEv_registry]) ha]

theorem get_succ_notFound {ann : MetaTable} {f : Nat} {st : FactorySt} {token : Injectable}
    (hf : findEntry st.registry token = none) (ha : autoMeta ann token = none) :
    get ann (f + 1) st token
      = (Except.error (Err.notRegistered token (errMsg token)),
         logEv st (Event.resolve token)) := by
  rw [get_succ, lookupStep_none (by rwa [logEv_registry]) ha]

/-! ## Singleton behavior of class entries with `isSingleton ≠ false` -/

/-- After any successful `get` of a class entry whose `isSingleton` is not
`false`, the returned instance sits in the singleton cache under the
entry's key. -/
theorem singleton_cached_after {ann : MetaTable} {f : Nat} {st st' : FactorySt}
    {k : Injectable} {cid : Nat} {sing : Option Bool} {deps : Option (List Injectable)}
    {v : Value}
    (hfind : findEntry st.registry k = some (Entry.clsE k cid sing deps))
    (hs : sing ≠ some false)
    (hok : get ann (f + 1) st k = (Except.ok v, st')) :
    mapGet st'.singletons k = some v := by
  rw [get_succ_found hfind] at hok
  rcases hh : cacheHit (logEv st (Event.resolve k)) k sing with _ | item
  · rcases hd : depsAll (fun s d => get ann f s d) (deps.getD [])
        (logEv st (Event.resolve k)) with ⟨r2, st2⟩
    cases r2 with
    | error err => rw [dispatch_clsE_err hh hd] at hok; cases (pairEq hok).1
    | ok vs =>
      rw [dispatch_clsE_ok hh hd, if_neg hs] at hok
      obtain ⟨h1, rfl⟩ := pairEq hok
      obtain rfl : Value.obj cid st2.nextStamp vs = v := by simpa using h1
      exact mapGet_mapSet_self _ _ _
  · rw [dispatch_clsE_hit hh] at hok
    obtain ⟨h1, rfl⟩ := pairEq hok
    obtain rfl : item = v := by simpa using h1
    have := (cacheHit_some_iff.mp hh).2.1
    simpa using this

/-- A `get` that finds a cached truthy instance for a non-`false`-singleton
class entry returns it immediately: the only state change is the trace
entry for the call itself — no dependency is re-resolved, nothing is
re-constructed. -/
theorem singleton_cached_get {ann : MetaTable} {f : Nat} {st : FactorySt}
    {k : Injectable} {cid : Nat} {sing : Option Bool} {deps : Option (List Injectable)}
    {v : Value}
    (hfind : findEntry st.registry k = some (Entry.clsE k cid sing deps))
    (hs : sing ≠ some false)
    (hcache : mapGet st.singletons k = some v)
    (ht : v.truthy = true) :
    get ann (f + 1) st k = (Except.ok v, logEv st (Event.resolve k)) := by
  rw [get_succ_found hfind]
  have hh : cacheHit (logEv st (Event.resolve k)) k sing = some v :=
    cacheHit_some_iff.mpr ⟨hs, by simpa using hcache, ht⟩
  rw [dispatch_clsE_hit hh]

/-- The combined singleton lifecycle: under the cache invariant, one
successful `get` leaves the instance cached, and every later `get` of the
same key (at any remaining stack depth) returns the identical instance with
the container unchanged except for the trace entry of the call. -/
theorem singleton_lifecycle {ann : MetaTable} {f : Nat} {st st' : FactorySt}
    {k : Injectable} {cid : Nat} {sing : Option Bool} {deps : Option (List Injectable)}
    {v : Value}
    (hC : CacheOK st)
    (hfind : findEntry st.registry k = some (Entry.clsE k cid sing deps))
    (hs : sing ≠ some false)
    (hok : get ann (f + 1) st k = (Except.ok v, st')) :
    mapGet st'.singletons k = some v ∧
    ∀ f2 : Nat, get ann (f2 + 1) st' k = (Except.ok v, logEv st' (Event.resolve k)) := by
  have hcache := singleton_cached_after hfind hs hok
  refine ⟨hcache, ?_⟩
  intro f2
  have hmono : Mono st st' := by
    have := get_mono ann (f + 1) st k
    rwa [hok] at this
  have hfind' : findEntry st'.registry k = some (Entry.clsE k cid sing deps) :=
    findEntry_of_mono hmono hfind
  have hC' : CacheOK st' := by
    have := get_cacheOK ann (f + 1) st k hC
    rwa [hok] at this
  exact singleton_cached_get hfind' hs hcache (cacheOK_truthy hC' hcache)

/-! ## Claims -/

/-- C4.  For every registered `ValueEntry {token, value}`, `get(token)`
returns the stored value itself, and the call changes nothing observable
(registry, singleton cache and freshness counter are untouched; only the
instrumentation trace records the call), so repeated calls are
indistinguishable from re-reading a constant. -/
theorem c4_value_entry_returns_stored (ann : MetaTable) (f : Nat) (st : FactorySt)
    (k : Injectable) (tok : String) (v : Value)
    (hfind : findEntry st.registry k = some (Entry.valE k tok v)) :
    get ann (f + 1) st k = (Except.ok v, logEv st (Event.resolve k)) ∧
    (logEv st (Event.resolve k)).registry = st.registry ∧
    (logEv st (Event.resolve k)).singletons = st.singletons ∧
    (logEv st (Event.resolve k)).nextStamp = st.nextStamp := by
  refine ⟨?_, rfl, rfl, rfl⟩
  rw [get_succ_found hfind, dispatch_valE]

/-- C2.  For a `TypeEntry` whose `isSingleton` flag is not explicitly
`false` (absent included), a successful `get(type)` leaves the constructed
instance in the singleton cache, and every subsequent `get(type)` returns
that identical cached instance immediately: the result is the same value
and the only state change is the trace entry of the call itself — no
dependency re-resolution, no re-construction. -/
theorem c2_singleton_cached_and_reused (ann : MetaTable) (f : Nat) (st st' : FactorySt)
    (k : Injectable) (cid : Nat) (sing : Option Bool) (deps : Option (List Injectable))
    (v : Value)
    (hC : CacheOK st)
    (hfind : findEntry st.registry k = some (Entry.clsE k cid sing deps))
    (hs : sing ≠ some false)
    (hok : get ann (f + 1) st k = (Except.ok v, st')) :
    mapGet st'.singletons k = some v ∧
    ∀ f2 : Nat, get ann (f2 + 1) st' k = (Except.ok v, logEv st' (Event.resolve k)) :=
  singleton_lifecycle hC hfind hs hok

/-! ## Inversion of the construction and invocation paths -/

theorem dispatch_clsE_construct_inv
    {g : FactorySt → Injectable → Except Err Value × FactorySt}
    {st1 st' : FactorySt} {ty : Injectable} {cid : Nat} {sing : Option Bool}
    {deps : Option (List Injectable)} {v : Value}
    (hh : cacheHit st1 ty sing = none)
    (hok : dispatch g st1 (Entry.clsE ty cid sing deps) = (Except.ok v, st')) :
    ∃ vs st2, depsAll g (deps.getD []) st1 = (Except.ok vs, st2) ∧
      v = Value.obj cid st2.nextStamp vs ∧
      st' = (if sing = some false then
               { st2 with nextStamp := st2.nextStamp + 1,
                          trace := Event.construct cid vs :: st2.trace }
             else
               { st2 with nextStamp := st2.nextStamp + 1,
                          trace := Event.construct cid vs :: st2.trace,
                          singletons :=
                            mapSet st2.singletons ty (Value.obj cid st2.nextStamp vs) }) := by
  rcases hd : depsAll g (deps.getD []) st1 with ⟨r2, st2⟩
  cases r2 with
  | error err =>
    rw [dispatch_clsE_err hh hd] at hok
    exact absurd (pairEq hok).1 (by simp)
  | ok vs =>
    rw [dispatch_clsE_ok hh hd] at hok
    obtain ⟨h1, h2⟩ := pairEq hok
    obtain rfl : Value.obj cid st2.nextStamp vs = v := by simpa using h1
    exact ⟨vs, st2, rfl, rfl, h2.symm⟩

theorem dispatch_fnE_inv
    {g : FactorySt → Injectable → Except Err Value × FactorySt}
    {st1 st' : FactorySt} {ty : Injectable} {fid : Nat}
    {deps : Option (List Injectable)} {v : Value}
    (hok : dispatch g st1 (Entry.fnE ty fid deps) = (Except.ok v, st')) :
    ∃ vs st2, depsAll g (deps.getD []) st1 = (Except.ok vs, st2) ∧
      v = Value.res fid st2.nextStamp vs ∧
      st' = { st2 with nextStamp := st2.nextStamp + 1,
                       trace := Event.invoke fid vs :: st2.trace } := by
  rcases hd : depsAll g (deps.getD []) st1 with ⟨r2, st2⟩
  cases r2 with
  | error err =>
    rw [dispatch_fnE_err hd] at hok
    exact absurd (pairEq hok).1 (by simp)
  | ok vs =>
    rw [dispatch_fnE_ok hd] at hok
    obtain ⟨h1, h2⟩ := pairEq hok
    obtain rfl : Value.res fid st2.nextStamp vs = v := by simpa using h1
    exact ⟨vs, st2, rfl, rfl, h2.symm⟩

theorem get_fnE_inv {ann : MetaTable} {f : Nat} {st st' : FactorySt}
    {k : Injectable} {fid : Nat} {dsOpt : Option (List Injectable)} {v : Value}
    (hfind : findEntry st.registry k = some (Entry.fnE k fid dsOpt))
    (hok : get ann (f + 1) st k = (Except.ok v, st')) :
    ∃ vs stMid,
      depsAll (fun s d => get ann f s d) (dsOpt.getD [])
          (logEv st (Event.resolve k)) = (Except.ok vs, stMid) ∧
      v = Value.res fid stMid.nextStamp vs ∧
      st' = { stMid with nextStamp := stMid.nextStamp + 1,
                         trace := Event.invoke fid vs :: stMid.trace } := by
  rw [get_succ_found hfind] at hok
  exact dispatch_fnE_inv hok

theorem get_clsE_construct_inv {ann : MetaTable} {f : Nat} {st st' : FactorySt}
    {k : Injectable} {cid : Nat} {sing : Option Bool}
    {dsOpt : Option (List Injectable)} {v : Value}
    (hfind : findEntry st.registry k = some (Entry.clsE k cid sing dsOpt))
    (hh : cacheHit (logEv st (Event.resolve k)) k sing = none)
    (hok : get ann (f + 1) st k = (Except.ok v, st')) :
    ∃ vs stMid,
      depsAll (fun s d => get ann f s d) (dsOpt.getD [])
          (logEv st (Event.resolve k)) = (Except.ok vs, stMid) ∧
      v = Value.obj cid stMid.nextStamp vs ∧
      st' = (if sing = some false then
               { stMid with nextStamp := stMid.nextStamp + 1,
                            trace := Event.construct cid vs :: stMid.trace }
             else
               { stMid with nextStamp := stMid.nextStamp + 1,
                            trace := Event.construct cid vs :: stMid.trace,
                            singletons :=
                              mapSet stMid.singletons k
                                (Value.obj cid stMid.nextStamp vs) }) := by
  rw [get_succ_found hfind] at hok
  exact dispatch_clsE_construct_inv hh hok

/-- Dependency resolution only moves the state monotonically. -/
theorem depsAll_mono {ann : MetaTable} {f : Nat} {ds : List Injectable}
    {st st2 : FactorySt} {r : Except Err (List Value)}
    (h : depsAll (fun s d => get ann f s d) ds st = (r, st2)) : Mono st st2 := by
  have := depsAll_rel Mono.rfl (fun h1 h2 => Mono.trans h1 h2)
    (fun s d => get_mono ann f s d) ds st
  rwa [h] at this

/-! ## A non-singleton class entry never touches its cache slot -/

/-- `KeyFrozen e0 k s t`: if `k`'s first-registered matching entry in `s`
is `e0`, then it still is in `t` and `k`'s singleton-cache slot is
unchanged from `s` to `t`. -/
def KeyFrozen (e0 : Entry) (k : Injectable) (s t : FactorySt) : Prop :=
  findEntry s.registry k = some e0 →
    (findEntry t.registry k = some e0 ∧ mapGet t.singletons k = mapGet s.singletons k)

theorem keyFrozen_refl (e0 : Entry) (k : Injectable) (s : FactorySt) :
    KeyFrozen e0 k s s := fun h => ⟨h, rfl⟩

theorem keyFrozen_trans {e0 : Entry} {k : Injectable} {s t u : FactorySt}
    (h1 : KeyFrozen e0 k s t) (h2 : KeyFrozen e0 k t u) : KeyFrozen e0 k s u := by
  intro hs
  obtain ⟨ht, hms⟩ := h1 hs
  obtain ⟨hu, hmt⟩ := h2 ht
  exact ⟨hu, hmt.trans hms⟩

theorem dispatch_keyFrozen {k : Injectable} {cid0 : Nat}
    {ds0 : Option (List Injectable)}
    {g : FactorySt → Injectable → Except Err Value × FactorySt}
    (hg : ∀ s d, KeyFrozen (Entry.clsE k cid0 (some false) ds0) k s ((g s d).2))
    (st1 : FactorySt) (e : Entry)
    (hfind : ∀ ty cid sing deps, e = Entry.clsE ty cid sing deps →
      findEntry st1.registry ty = some e) :
    KeyFrozen (Entry.clsE k cid0 (some false) ds0) k st1 ((dispatch g st1 e).2) := by
  set e0 : Entry := Entry.clsE k cid0 (some false) ds0 with he0
  have hdeps : ∀ (ds : List Injectable) (st : FactorySt),
      KeyFrozen e0 k st ((depsAll g ds st).2) :=
    depsAll_rel (keyFrozen_refl e0 k) (fun h1 h2 => keyFrozen_trans h1 h2) hg
  cases e with
  | valE ty tok v => rw [dispatch_valE]; exact keyFrozen_refl e0 k st1
  | fnE ty fid deps =>
    rcases hd : depsAll g (deps.getD []) st1 with ⟨r2, st2⟩
    have p : KeyFrozen e0 k st1 st2 := by
      have := hdeps (deps.getD []) st1; rwa [hd] at this
    cases r2 with
    | error err => rw [dispatch_fnE_err hd]; exact p
    | ok vs =>
      rw [dispatch_fnE_ok hd]
      intro hs
      obtain ⟨h1, h2⟩ := p hs
      exact ⟨h1, h2⟩
  | clsE ty cid sing deps =>
    rcases hh : cacheHit st1 ty sing with _ | item
    · rcases hd : depsAll g (deps.getD []) st1 with ⟨r2, st2⟩
      have p : KeyFrozen e0 k st1 st2 := by
        have := hdeps (deps.getD []) st1; rwa [hd] at this
      cases r2 with
      | error err => rw [dispatch_clsE_err hh hd]; exact p
      | ok vs =>
        rw [dispatch_clsE_ok hh hd]
        by_cases hsing : sing = some false
        · simp only [if_pos hsing]
          intro hs
          obtain ⟨h1, h2⟩ := p hs
          exact ⟨h1, h2⟩
        · simp only [if_neg hsing]
          intro hs
          obtain ⟨h1, h2⟩ := p hs
          refine ⟨h1, ?_⟩
          have hne : k ≠ ty := by
            intro hk
            subst hk
            have hfe := hfind k cid sing deps rfl
            have heq : e0 = Entry.clsE k cid sing deps :=
              Option.some.inj (hs.symm.trans hfe)
            rw [he0] at heq
            injection heq with hA hB hC hD
            exact hsing hC.symm
          show mapGet (mapSet st2.singletons ty _) k = _
          rw [mapGet_mapSet_ne _ _ hne]
          exact h2
    · rw [dispatch_clsE_hit hh]; exact keyFrozen_refl e0 k st1

theorem get_keyFrozen (ann : MetaTable) (k : Injectable) (cid0 : Nat)
    (ds0 : Option (List Injectable)) :
    ∀ (fuel : Nat) (st : FactorySt) (token : Injectable),
      KeyFrozen (Entry.clsE k cid0 (some false) ds0) k st ((get ann fuel st token).2) := by
  intro fuel
  induction fuel with
  | zero =>
    intro st token
    rw [get_zero]
    exact keyFrozen_refl _ k st
  | succ f ih =>
    intro st token
    rw [get_succ]
    rcases hls : lookupStep ann (logEv st (Event.resolve token)) token with ⟨oe, st1⟩
    obtain ⟨⟨l, hl⟩, hsing, -, -, hsome⟩ := lookupStep_inv hls
    have p0 : KeyFrozen (Entry.clsE k cid0 (some false) ds0) k st st1 := by
      intro hs
      constructor
      · rw [hl, logEv_registry]
        exact findEntry_append_some hs l
      · rw [hsing, logEv_singletons]
    cases oe with
    | none => simpa using p0
    | some e =>
      simp only
      refine keyFrozen_trans p0 (dispatch_keyFrozen (fun s d => ih s d) st1 e ?_)
      intro ty cid sing deps he
      obtain ⟨hfe, hty⟩ := hsome e rfl
      subst he
      rw [Entry.type_clsE] at hty
      subst hty
      exact hfe

/-- C5.  For every registered `FunctionEntry`, each successful `get(fn)`
resolves the declared dependencies in declaration order through recursive
`get` (`SeqResolves`), invokes the function with exactly those values
positionally (the result records them in order) on a fresh invocation
stamp, caches nothing (the final state is the dependency-resolution state
plus only the counter tick and the invocation trace event — its singleton
map is untouched by the invocation step), and a later `get(fn)` never
returns the same result: every call is a fresh invocation. -/
theorem c5_function_entry_reinvoked (ann : MetaTable) (f : Nat) (st st' : FactorySt)
    (k : Injectable) (fid : Nat) (dsOpt : Option (List Injectable)) (v : Value)
    (hfind : findEntry st.registry k = some (Entry.fnE k fid dsOpt))
    (hok : get ann (f + 1) st k = (Except.ok v, st')) :
    ∃ vs stMid,
      SeqResolves ann f (logEv st (Event.resolve k)) (dsOpt.getD []) vs stMid ∧
      v = Value.res fid stMid.nextStamp vs ∧
      st' = { stMid with nextStamp := stMid.nextStamp + 1,
                         trace := Event.invoke fid vs :: stMid.trace } ∧
      st'.singletons = stMid.singletons ∧
      ∀ f2 v2 st2, get ann (f2 + 1) st' k = (Except.ok v2, st2) → v2 ≠ v := by
  obtain ⟨vs, stMid, hd, hv, hst⟩ := get_fnE_inv hfind hok
  refine ⟨vs, stMid, depsAll_ok_iff_seqResolves.mp hd, hv, hst, by rw [hst], ?_⟩
  intro f2 v2 st2 hok2
  have hmono : Mono st st' := by
    have := get_mono ann (f + 1) st k
    rwa [hok] at this
  have hfind' : findEntry st'.registry k = some (Entry.fnE k fid dsOpt) :=
    findEntry_of_mono hmono hfind
  obtain ⟨vs2, stMid2, hd2, hv2, -⟩ := get_fnE_inv hfind' hok2
  have hm2 : Mono (logEv st' (Event.resolve k)) stMid2 := depsAll_mono hd2
  have hstamp : stMid.nextStamp < stMid2.nextStamp := by
    have h1 : st'.nextStamp = stMid.nextStamp + 1 := by rw [hst]
    have h2 : st'.nextStamp ≤ stMid2.nextStamp := by
      have := hm2.2
      simpa using this
    omega
  rw [hv2, hv]
  intro hcontra
  injection hcontra with hA hB hC
  omega

/-- C1.  For a registered `TypeEntry` (when it actually constructs: its
`isSingleton` is `false` or nothing is cached for its key) and for a
registered `FunctionEntry`, `get(key)` resolves each declared dependency
key in declaration order by a recursive call to `get` — `SeqResolves` is
exactly that chain, threading the state left to right, and recursion inside
`get` makes the resolution transitive through nested chains — and the
resolved values are passed positionally, in that order, as the
constructor / function arguments (the produced value records its argument
list, equal to the resolved chain). -/
theorem c1_dependencies_in_declaration_order (ann : MetaTable) (f : Nat)
    (st st' : FactorySt) (k : Injectable) (v : Value) :
    (∀ cid sing dsL,
       findEntry st.registry k = some (Entry.clsE k cid sing (some dsL)) →
       (sing = some false ∨ mapGet st.singletons k = none) →
       get ann (f + 1) st k = (Except.ok v, st') →
       ∃ vs stMid, SeqResolves ann f (logEv st (Event.resolve k)) dsL vs stMid ∧
         v = Value.obj cid stMid.nextStamp vs) ∧
    (∀ fid dsL,
       findEntry st.registry k = some (Entry.fnE k fid (some dsL)) →
       get ann (f + 1) st k = (Except.ok v, st') →
       ∃ vs stMid, SeqResolves ann f (logEv st (Event.resolve k)) dsL vs stMid ∧
         v = Value.res fid stMid.nextStamp vs) := by
  constructor
  · intro cid sing dsL hfind hmiss hok
    have hh : cacheHit (logEv st (Event.resolve k)) k sing = none := by
      rcases hmiss with hm | hm
      · subst hm
        exact cacheHit_of_false
      · exact cacheHit_of_mapGet_none (by simpa using hm)
    obtain ⟨vs, stMid, hd, hv, -⟩ := get_clsE_construct_inv hfind hh hok
    exact ⟨vs, stMid, depsAll_ok_iff_seqResolves.mp (by simpa using hd), hv⟩
  · intro fid dsL hfind hok
    obtain ⟨vs, stMid, hd, hv, -⟩ := get_fnE_inv hfind hok
    exact ⟨vs, stMid, depsAll_ok_iff_seqResolves.mp (by simpa using hd), hv⟩

/-- C6.  For a `TypeEntry` registered with `isSingleton` explicitly
`false`, every successful `get(type)` freshly re-resolves the declared
dependencies (`SeqResolves` from the call's own state) and constructs a
fresh instance on a new stamp; the singleton cache is not read (the
construction happens whatever the cache holds) and not written for that
entry's key — neither by the final step (the state equation adds no cache
write) nor anywhere inside the dependency resolution (`k`'s slot is
unchanged end to end) — and no later `get(type)` can return the same
instance. -/
theorem c6_nonsingleton_fresh_instances (ann : MetaTable) (f : Nat) (st st' : FactorySt)
    (k : Injectable) (cid : Nat) (dsOpt : Option (List Injectable)) (v : Value)
    (hfind : findEntry st.registry k = some (Entry.clsE k cid (some false) dsOpt))
    (hok : get ann (f + 1) st k = (Except.ok v, st')) :
    ∃ vs stMid,
      SeqResolves ann f (logEv st (Event.resolve k)) (dsOpt.getD []) vs stMid ∧
      v = Value.obj cid stMid.nextStamp vs ∧
      st' = { stMid with nextStamp := stMid.nextStamp + 1,
                         trace := Event.construct cid vs :: stMid.trace } ∧
      mapGet st'.singletons k = mapGet st.singletons k ∧
      ∀ f2 v2 st2, get ann (f2 + 1) st' k = (Except.ok v2, st2) → v2 ≠ v := by
  obtain ⟨vs, stMid, hd, hv, hst⟩ := get_clsE_construct_inv hfind cacheHit_of_false hok
  rw [if_pos rfl] at hst
  have hfrozen : mapGet st'.singletons k = mapGet st.singletons k := by
    have h := get_keyFrozen ann k cid dsOpt (f + 1) st k
    rw [hok] at h
    exact (h hfind).2
  refine ⟨vs, stMid, depsAll_ok_iff_seqResolves.mp hd, hv, hst, hfrozen, ?_⟩
  intro f2 v2 st2 hok2
  have hmono : Mono st st' := by
    have := get_mono ann (f + 1) st k
    rwa [hok] at this
  have hfind' : findEntry st'.registry k = some (Entry.clsE k cid (some false) dsOpt) :=
    findEntry_of_mono hmono hfind
  obtain ⟨vs2, stMid2, hd2, hv2, -⟩ :=
    get_clsE_construct_inv hfind' cacheHit_of_false hok2
  have hm2 : Mono (logEv st' (Event.resolve k)) stMid2 := depsAll_mono hd2
  have hstamp : stMid.nextStamp < stMid2.nextStamp := by
    have h1 : st'.nextStamp = stMid.nextStamp + 1 := by rw [hst]
    have h2 : st'.nextStamp ≤ stMid2.nextStamp := by
      have := hm2.2
      simpa using this
    omega
  rw [hv2, hv]
  intro hcontra
  injection hcontra with hA hB hC
  omega

/-- C7.  When `get(key)` finds no registry entry: if the key is a class
reference carrying annotation metadata, a `TypeEntry` synthesized from that
metadata (no `isSingleton` field, the metadata's dependency list) is
appended to the registry and the lookup retried once — the retry finds
exactly that entry, and the whole call behaves identically (result and
final state) to a call on the container with that entry already appended.
If the auto-registration guard does not hold, the call fails with the
`NotRegistered` error and the container is unchanged but for the trace; the
guard never holds for string-token keys or function-reference keys. -/
theorem c7_auto_registration_for_annotated_classes (ann : MetaTable) (f : Nat)
    (st : FactorySt) (k : Injectable)
    (hmiss : findEntry st.registry k = none) :
    (∀ n ds, k = Injectable.cls n → ann n = some ds →
       findEntry (pushEntry st (Entry.clsE k n none (some ds))).registry k
           = some (Entry.clsE k n none (some ds)) ∧
       get ann (f + 1) st k
           = get ann (f + 1) (pushEntry st (Entry.clsE k n none (some ds))) k) ∧
    (autoMeta ann k = none →
       get ann (f + 1) st k
         = (Except.error (Err.notRegistered k (errMsg k)), logEv st (Event.resolve k))) ∧
    (∀ s, k = Injectable.str s → autoMeta ann k = none) ∧
    (∀ n, k = Injectable.fn n → autoMeta ann k = none) := by
  refine ⟨?_, ?_, ?_, ?_⟩
  · intro n ds hk ha
    subst hk
    have hfound : findEntry
        (pushEntry st (Entry.clsE (Injectable.cls n) n none (some ds))).registry
        (Injectable.cls n) = some (Entry.clsE (Injectable.cls n) n none (some ds)) := by
      rw [pushEntry_registry, findEntry_append_none hmiss, findEntry_single_clsE]
    refine ⟨hfound, ?_⟩
    have hauto : autoMeta ann (Injectable.cls n) = some (n, ds) := by
      simp [autoMeta, ha]
    rw [get_succ_auto hmiss hauto, get_succ_found hfound]
    rfl
  · intro ha
    exact get_succ_notFound hmiss ha
  · intro s hk
    subst hk
    rfl
  · intro n hk
    subst hk
    rfl

/-- C9.  Every operation preserves the singleton-cache invariant: a fresh
container satisfies it, `assemble` preserves it, and `get` preserves it —
the cache only ever holds constructed instances (`Value.obj`) whose key's
first-registered matching entry is the class entry that produced them, with
`isSingleton ≠ false`.  And when resolving a dependency of a `TypeEntry`
fails, the error propagates before construction: `get` returns exactly the
error and the state the failed dependency resolution produced — the
constructor is not invoked and this resolution writes nothing to the cache
for the entry. -/
theorem c9_cache_invariant_and_failure_propagation :
    CacheOK newFactory ∧
    (∀ (ann : MetaTable) (st : FactorySt) (it : ToAssemble),
       CacheOK st → CacheOK (assembleItem ann st it)) ∧
    (∀ (ann : MetaTable) (fuel : Nat) (st : FactorySt) (token : Injectable),
       CacheOK st → CacheOK ((get ann fuel st token).2)) ∧
    (∀ (ann : MetaTable) (f : Nat) (st stE : FactorySt) (k : Injectable)
       (cid : Nat) (sing : Option Bool) (dsOpt : Option (List Injectable)) (err : Err),
       findEntry st.registry k = some (Entry.clsE k cid sing dsOpt) →
       cacheHit (logEv st (Event.resolve k)) k sing = none →
       depsAll (fun s d => get ann f s d) (dsOpt.getD [])
           (logEv st (Event.resolve k)) = (Except.error err, stE) →
       get ann (f + 1) st k = (Except.error err, stE)) := by
  refine ⟨cacheOK_newFactory, ?_, ?_, ?_⟩
  · intro ann st it hC
    cases it <;> exact cacheOK_pushEntry hC _
  · intro ann fuel st token hC
    exact get_cacheOK ann fuel st token hC
  · intro ann f st stE k cid sing dsOpt err hfind hh hd
    rw [get_succ_found hfind]
    exact dispatch_clsE_err hh hd

/-- C10.  The bare-class shorthand of `assemble` pushes a class entry with
no `isSingleton` field (its dependency list read from the decorator
metadata), and the auto-registration path of `get` behaves exactly as if
such an entry (metadata dependencies, no `isSingleton` field) had been
appended beforehand; an entry whose `isSingleton` field is absent is
treated as a singleton: a successful `get` leaves the instance cached and
every subsequent `get` of that key returns the identical instance with no
state change beyond the trace of the call. -/
theorem c10_shorthand_and_auto_entries_default_to_singleton (ann : MetaTable) :
    (∀ (st : FactorySt) (c : Nat),
       assembleItem ann st (ToAssemble.bareClass c)
         = pushEntry st (Entry.clsE (Injectable.cls c) c none (ann c))) ∧
    (∀ (f : Nat) (st : FactorySt) (n : Nat) (ds : List Injectable),
       findEntry st.registry (Injectable.cls n) = none → ann n = some ds →
       get ann (f + 1) st (Injectable.cls n)
         = get ann (f + 1)
             (pushEntry st (Entry.clsE (Injectable.cls n) n none (some ds)))
             (Injectable.cls n)) ∧
    (∀ (f : Nat) (st st' : FactorySt) (k : Injectable) (cid : Nat)
       (dsOpt : Option (List Injectable)) (v : Value),
       CacheOK st →
       findEntry st.registry k = some (Entry.clsE k cid none dsOpt) →
       get ann (f + 1) st k = (Except.ok v, st') →
       mapGet st'.singletons k = some v ∧
       ∀ f2 : Nat, get ann (f2 + 1) st' k = (Except.ok v, logEv st' (Event.resolve k))) := by
  refine ⟨fun st c => rfl, ?_, ?_⟩
  · intro f st n ds hmiss ha
    have hauto : autoMeta ann (Injectable.cls n) = some (n, ds) := by
      simp [autoMeta, ha]
    have hfound : findEntry
        (pushEntry st (Entry.clsE (Injectable.cls n) n none (some ds))).registry
        (Injectable.cls n) = some (Entry.clsE (Injectable.cls n) n none (some ds)) := by
      rw [pushEntry_registry, findEntry_append_none hmiss, findEntry_single_clsE]
    rw [get_succ_auto hmiss hauto, get_succ_found hfound]
    rfl
  · intro f st st' k cid dsOpt v hC hfind hok
    exact singleton_lifecycle hC hfind (by simp) hok

/-! ## Where the NotRegistered error can come from -/

theorem findEntry_none_of_mono {s t : FactorySt} {k : Injectable}
    (h : Mono s t) (hf : findEntry t.registry k = none) :
    findEntry s.registry k = none := by
  rcases hq : findEntry s.registry k with _ | e
  · rfl
  · have := findEntry_of_mono h hq
    rw [hf] at this
    cases this

theorem depsAll_err_src {g : FactorySt → Injectable → Except Err Value × FactorySt}
    (hmono : ∀ s d, Mono s ((g s d).2)) :
    ∀ (ds : List Injectable) (s s' : FactorySt) (err : Err),
      depsAll g ds s = (Except.error err, s') →
      ∃ s0 d s1, Mono s s0 ∧ g s0 d = (Except.error err, s1) := by
  intro ds
  induction ds with
  | nil =>
    intro s s' err h
    obtain ⟨h1, -⟩ := pairEq h
    cases h1
  | cons d ds ih =>
    intro s s' err h
    rcases h1 : g s d with ⟨r1, s1⟩
    have hm1 : Mono s s1 := by
      have := hmono s d
      rwa [h1] at this
    cases r1 with
    | error e1 =>
      simp only [depsAll, h1] at h
      obtain ⟨he, -⟩ := pairEq h
      obtain rfl : e1 = err := by simpa using he
      exact ⟨s, d, s1, Mono.rfl s, h1⟩
    | ok v =>
      rcases h2 : depsAll g ds s1 with ⟨r2, s2⟩
      cases r2 with
      | error e2 =>
        simp only [depsAll, h1, h2] at h
        obtain ⟨he, -⟩ := pairEq h
        obtain rfl : e2 = err := by simpa using he
        obtain ⟨s0, d', s3, hm, hgerr⟩ := ih s1 s2 e2 h2
        exact ⟨s0, d', s3, Mono.trans hm1 hm, hgerr⟩
      | ok vs =>
        simp only [depsAll, h1, h2] at h
        obtain ⟨he, -⟩ := pairEq h
        cases he

theorem dispatch_err_src {g : FactorySt → Injectable → Except Err Value × FactorySt}
    (hmono : ∀ s d, Mono s ((g s d).2))
    {st1 st' : FactorySt} {e : Entry} {err : Err}
    (h : dispatch g st1 e = (Except.error err, st')) :
    ∃ s0 d s1, Mono st1 s0 ∧ g s0 d = (Except.error err, s1) := by
  cases e with
  | valE ty tok v =>
    rw [dispatch_valE] at h
    obtain ⟨h1, -⟩ := pairEq h
    cases h1
  | fnE ty fid deps =>
    rcases hd : depsAll g (deps.getD []) st1 with ⟨r2, st2⟩
    cases r2 with
    | error e2 =>
      rw [dispatch_fnE_err hd] at h
      obtain ⟨he, -⟩ := pairEq h
      obtain rfl : e2 = err := by simpa using he
      exact depsAll_err_src hmono _ _ _ _ hd
    | ok vs =>
      rw [dispatch_fnE_ok hd] at h
      obtain ⟨he, -⟩ := pairEq h
      cases he
  | clsE ty cid sing deps =>
    rcases hh : cacheHit st1 ty sing with _ | item
    · rcases hd : depsAll g (deps.getD []) st1 with ⟨r2, st2⟩
      cases r2 with
      | error e2 =>
        rw [dispatch_clsE_err hh hd] at h
        obtain ⟨he, -⟩ := pairEq h
        obtain rfl : e2 = err := by simpa using he
        exact depsAll_err_src hmono _ _ _ _ hd
      | ok vs =>
        rw [dispatch_clsE_ok hh hd] at h
        obtain ⟨he, -⟩ := pairEq h
        cases he
    · rw [dispatch_clsE_hit hh] at h
      obtain ⟨he, -⟩ := pairEq h
      cases he

/-- The `NotRegistered` error is raised, at whatever depth, exactly at a
call whose key has no matching entry and no applicable auto-registration;
since the registry only grows, that key had no matching entry in the
original registry either, and the carried message is the one built for that
key. -/
theorem get_notRegistered_src (ann : MetaTable) :
    ∀ (fuel : Nat) (st : FactorySt) (token kk : Injectable) (m : String),
      (get ann fuel st token).1 = Except.error (Err.notRegistered kk m) →
      findEntry st.registry kk = none ∧ autoMeta ann kk = none ∧ m = errMsg kk := by
  intro fuel
  induction fuel with
  | zero =>
    intro st token kk m h
    rw [get_zero] at h
    simp at h
  | succ f ih =>
    intro st token kk m h
    rw [get_succ] at h
    rcases hls : lookupStep ann (logEv st (Event.resolve token)) token with ⟨oe, st1⟩
    rw [hls] at h
    obtain ⟨⟨l, hl⟩, -, hns, -, -⟩ := lookupStep_inv hls
    have hm01 : Mono st st1 := ⟨⟨l, by rw [hl]; simp⟩, by rw [hns]; simp⟩
    cases oe with
    | none =>
      simp only at h
      have herr : Err.notRegistered token (errMsg token) = Err.notRegistered kk m := by
        simpa using h
      injection herr with h1 h2
      subst h1
      subst h2
      -- a `(none, st1)` lookup result forces: no match and no metadata
      rcases hf : findEntry (logEv st (Event.resolve token)).registry token with _ | e0
      · rcases ha : autoMeta ann token with _ | nd
        · exact ⟨by rwa [logEv_registry] at hf, rfl, rfl⟩
        · obtain ⟨n, ds⟩ := nd
          rw [lookupStep_auto hf ha] at hls
          obtain ⟨hcontra, -⟩ := pairEq hls
          cases hcontra
      · rw [lookupStep_found hf] at hls
        obtain ⟨hcontra, -⟩ := pairEq hls
        cases hcontra
    | some e =>
      simp only at h
      rcases hdis : dispatch (fun s d => get ann f s d) st1 e with ⟨rd, std⟩
      rw [hdis] at h
      simp only at h
      subst h
      obtain ⟨s0, d, s1, hm0, hgerr⟩ :=
        dispatch_err_src (fun s d => get_mono ann f s d) hdis
      have hrec := ih s0 d kk m (by rw [hgerr])
      obtain ⟨hfe, ha, hmsg⟩ := hrec
      exact ⟨findEntry_none_of_mono (Mono.trans hm01 hm0) hfe, ha, hmsg⟩

/-- C3.  `get(key)` fails with the `NotRegistered` error for the requested
key — the error whose message is built from that key — if and only if no
registry entry matches the key and the auto-registration fallback does not
apply; and the error message contains the stringified requested key. -/
theorem c3_notRegistered_iff_unmatched (ann : MetaTable) (f : Nat) (st : FactorySt)
    (k : Injectable) :
    ((get ann (f + 1) st k).1 = Except.error (Err.notRegistered k (errMsg k)) ↔
       (findEntry st.registry k = none ∧ autoMeta ann k = none)) ∧
    ∃ a b, errMsg k = a ++ stringify k ++ b := by
  constructor
  · constructor
    · intro h
      obtain ⟨hf, ha, -⟩ := get_notRegistered_src ann (f + 1) st k k (errMsg k) h
      exact ⟨hf, ha⟩
    · rintro ⟨hf, ha⟩
      rw [get_succ_notFound hf ha]
  · exact ⟨"Provided token: \"",
      "\" is not registered for dependency injection", rfl⟩

/-! ## Resolution only sees the registry through first-match lookup -/

/-- Two container states that agree on every first-match lookup, on the
singleton cache, on the freshness counter and on the trace.  Resolution
cannot tell them apart. -/
def EquivSt (s t : FactorySt) : Prop :=
  (∀ k, findEntry s.registry k = findEntry t.registry k) ∧
  s.singletons = t.singletons ∧ s.nextStamp = t.nextStamp ∧ s.trace = t.trace

theorem equivSt_log {s t : FactorySt} (h : EquivSt s t) (ev : Event) :
    EquivSt (logEv s ev) (logEv t ev) := by
  obtain ⟨h1, h2, h3, h4⟩ := h
  exact ⟨fun k => by simpa using h1 k, by simpa using h2, by simpa using h3,
    by simp [logEv, h4]⟩

theorem findEntry_single_ne {e : Entry} {k : Injectable} (h : e.type ≠ k) :
    findEntry [e] k = none := by
  simp [findEntry, h]

theorem equivSt_push {s t : FactorySt} (h : EquivSt s t) (e : Entry) :
    EquivSt (pushEntry s e) (pushEntry t e) := by
  obtain ⟨h1, h2, h3, h4⟩ := h
  refine ⟨?_, by simpa using h2, by simpa using h3, by simp [pushEntry, h4]⟩
  intro k
  rw [pushEntry_registry, pushEntry_registry]
  rcases hq : findEntry s.registry k with _ | e0
  · rw [findEntry_append_none hq, findEntry_append_none ((h1 k).symm.trans hq)]
  · rw [findEntry_append_some hq, findEntry_append_some ((h1 k).symm.trans hq)]

theorem cacheHit_congr {s t : FactorySt} (h : s.singletons = t.singletons)
    (ty : Injectable) (sing : Option Bool) : cacheHit s ty sing = cacheHit t ty sing := by
  simp [cacheHit, h]

theorem depsAll_congr {g : FactorySt → Injectable → Except Err Value × FactorySt}
    (hg : ∀ s t d, EquivSt s t → (g s d).1 = (g t d).1 ∧ EquivSt ((g s d).2) ((g t d).2)) :
    ∀ (ds : List Injectable) (s t : FactorySt), EquivSt s t →
      (depsAll g ds s).1 = (depsAll g ds t).1 ∧
      EquivSt ((depsAll g ds s).2) ((depsAll g ds t).2) := by
  intro ds
  induction ds with
  | nil => intro s t h; exact ⟨rfl, h⟩
  | cons d ds ih =>
    intro s t h
    obtain ⟨hr1, he1⟩ := hg s t d h
    rcases h1s : g s d with ⟨r1s, s1⟩
    rcases h1t : g t d with ⟨r1t, t1⟩
    rw [h1s, h1t] at hr1 he1
    simp only at hr1 he1
    subst hr1
    cases r1s with
    | error err => simp only [depsAll, h1s, h1t]; exact ⟨trivial, he1⟩
    | ok v =>
      obtain ⟨hr2, he2⟩ := ih s1 t1 he1
      rcases h2s : depsAll g ds s1 with ⟨r2s, s2⟩
      rcases h2t : depsAll g ds t1 with ⟨r2t, t2⟩
      rw [h2s, h2t] at hr2 he2
      simp only at hr2 he2
      subst hr2
      cases r2s with
      | error err => simp only [depsAll, h1s, h1t, h2s, h2t]; exact ⟨trivial, he2⟩
      | ok vs => simp only [depsAll, h1s, h1t, h2s, h2t]; exact ⟨trivial, he2⟩

theorem dispatch_congr {g : FactorySt → Injectable → Except Err Value × FactorySt}
    (hg : ∀ s t d, EquivSt s t → (g s d).1 = (g t d).1 ∧ EquivSt ((g s d).2) ((g t d).2))
    {st1 st1' : FactorySt} (e : Entry) (h : EquivSt st1 st1') :
    (dispatch g st1 e).1 = (dispatch g st1' e).1 ∧
    EquivSt ((dispatch g st1 e).2) ((dispatch g st1' e).2) := by
  cases e with
  | valE ty tok v => rw [dispatch_valE, dispatch_valE]; exact ⟨rfl, h⟩
  | fnE ty fid deps =>
    obtain ⟨hr, he⟩ := depsAll_congr hg (deps.getD []) st1 st1' h
    rcases hds : depsAll g (deps.getD []) st1 with ⟨rs, s2⟩
    rcases hdt : depsAll g (deps.getD []) st1' with ⟨rt, t2⟩
    rw [hds, hdt] at hr he
    simp only at hr he
    subst hr
    cases rs with
    | error err =>
      rw [dispatch_fnE_err hds, dispatch_fnE_err hdt]
      exact ⟨rfl, he⟩
    | ok vs =>
      rw [dispatch_fnE_ok hds, dispatch_fnE_ok hdt]
      obtain ⟨he1, he2, he3, he4⟩ := he
      refine ⟨by simp [he3], ?_⟩
      exact ⟨fun k => by simpa using he1 k, by simpa using he2,
        by simp [he3], by simp [he4]⟩
  | clsE ty cid sing deps =>
    have hch := cacheHit_congr h.2.1 ty sing
    rcases hh : cacheHit st1 ty sing with _ | item
    · have hh' : cacheHit st1' ty sing = none := by rw [← hch]; exact hh
      obtain ⟨hr, he⟩ := depsAll_congr hg (deps.getD []) st1 st1' h
      rcases hds : depsAll g (deps.getD []) st1 with ⟨rs, s2⟩
      rcases hdt : depsAll g (deps.getD []) st1' with ⟨rt, t2⟩
      rw [hds, hdt] at hr he
      simp only at hr he
      subst hr
      cases rs with
      | error err =>
        rw [dispatch_clsE_err hh hds, dispatch_clsE_err hh' hdt]
        exact ⟨rfl, he⟩
      | ok vs =>
        rw [dispatch_clsE_ok hh hds, dispatch_clsE_ok hh' hdt]
        obtain ⟨he1, he2, he3, he4⟩ := he
        by_cases hs : sing = some false
        · simp only [if_pos hs]
          refine ⟨by simp [he3], ?_⟩
          exact ⟨fun k => by simpa using he1 k, by simpa using he2,
            by simp [he3], by simp [he4]⟩
        · simp only [if_neg hs]
          refine ⟨by simp [he3], ?_⟩
          refine ⟨fun k => by simpa using he1 k, ?_, by simp [he3], by simp [he4]⟩
          simp only
          rw [he2, he3]
    · have hh' : cacheHit st1' ty sing = some item := by rw [← hch]; exact hh
      rw [dispatch_clsE_hit hh, dispatch_clsE_hit hh']
      exact ⟨rfl, h⟩

/-- `get` is a congruence for `EquivSt`: resolution depends on the registry
only through first-match lookup. -/
theorem get_congr (ann : MetaTable) :
    ∀ (fuel : Nat) (s t : FactorySt) (token : Injectable), EquivSt s t →
      (get ann fuel s token).1 = (get ann fuel t token).1 ∧
      EquivSt ((get ann fuel s token).2) ((get ann fuel t token).2) := by
  intro fuel
  induction fuel with
  | zero =>
    intro s t token h
    rw [get_zero, get_zero]
    exact ⟨rfl, h⟩
  | succ f ih =>
    intro s t token h
    rcases hf : findEntry s.registry token with _ | e
    · have hft : findEntry t.registry token = none := (h.1 token).symm.trans hf
      rcases ha : autoMeta ann token with _ | nd
      · rw [get_succ_notFound hf ha, get_succ_notFound hft ha]
        exact ⟨rfl, equivSt_log h _⟩
      · obtain ⟨n, ds⟩ := nd
        rw [get_succ_auto hf ha, get_succ_auto hft ha]
        exact dispatch_congr (fun s t d hh => ih s t d hh) _
          (equivSt_push (equivSt_log h _) _)
    · have hft : findEntry t.registry token = some e := (h.1 token).symm.trans hf
      rw [get_succ_found hf, get_succ_found hft]
      exact dispatch_congr (fun s t d hh => ih s t d hh) _ (equivSt_log h _)

/-- C8.  Lookup always returns the first-registered matching entry; a
duplicate registered later under an already-taken key is permanently
shadowed: appending it changes nothing observable about any resolution —
same result, same singleton cache, same freshness counter, same trace. -/
theorem c8_first_match_wins_later_duplicates_shadowed (ann : MetaTable) :
    (∀ (l1 l2 : List Entry) (e : Entry) (k : Injectable),
       (∀ e' ∈ l1, e'.type ≠ k) → e.type = k →
       findEntry (l1 ++ e :: l2) k = some e) ∧
    (∀ (st : FactorySt) (e2 : Entry) (fuel : Nat) (token : Injectable),
       (∃ e0, findEntry st.registry e2.type = some e0) →
       (get ann fuel (pushEntry st e2) token).1 = (get ann fuel st token).1 ∧
       ((get ann fuel (pushEntry st e2) token).2).singletons
           = ((get ann fuel st token).2).singletons ∧
       ((get ann fuel (pushEntry st e2) token).2).nextStamp
           = ((get ann fuel st token).2).nextStamp ∧
       ((get ann fuel (pushEntry st e2) token).2).trace
           = ((get ann fuel st token).2).trace) := by
  constructor
  · intro l1 l2 e k hnone htype
    induction l1 with
    | nil => simp [findEntry, htype]
    | cons a l1 ih =>
      have ha : a.type ≠ k := hnone a (by simp)
      simp only [List.cons_append, findEntry, if_neg ha]
      exact ih fun e' he' => hnone e' (by simp [he'])
  · intro st e2 fuel token hshadow
    obtain ⟨e0, he0⟩ := hshadow
    have hE : EquivSt (pushEntry st e2) st := by
      refine ⟨?_, rfl, rfl, rfl⟩
      intro k'
      rw [pushEntry_registry]
      rcases hq : findEntry st.registry k' with _ | e1
      · have hne : e2.type ≠ k' := by
          intro hk
          rw [hk] at he0
          rw [he0] at hq
          cases hq
        rw [findEntry_append_none hq, findEntry_single_ne hne]
      · rw [findEntry_append_some hq]
    obtain ⟨h1, h2⟩ := get_congr ann fuel (pushEntry st e2) st token hE
    exact ⟨h1, h2.2.1, h2.2.2.1, h2.2.2.2⟩

/-! ## Concrete containers, mirroring the repository's test scenarios -/

/-- No decorator metadata anywhere. -/
def annNone : MetaTable := fun _ => none

/-- Class 9 was decorated with `@assemble({ deps: ["hello"] })`. -/
def annW : MetaTable :=
  fun n => if n = 9 then some [Injectable.str "hello"] else none

/-- `register({token:"hello", value:"world"})`. -/
def stValue : FactorySt :=
  assembleItem annNone newFactory (ToAssemble.valueItem "hello" (Value.lit "world"))

/-- Two value tokens and a class (identity 7) depending on both, in order. -/
def stC : FactorySt :=
  assembleItem annNone
    (assembleItem annNone
      (assembleItem annNone newFactory (ToAssemble.valueItem "a" (Value.lit "A")))
      (ToAssemble.valueItem "b" (Value.lit "B")))
    (ToAssemble.classItem 7 none (some [Injectable.str "a", Injectable.str "b"]))

/-- A value token and a function (identity 3) depending on it. -/
def stFn : FactorySt :=
  assembleItem annNone
    (assembleItem annNone newFactory (ToAssemble.valueItem "hey" (Value.lit "ho")))
    (ToAssemble.funcItem 3 (some [Injectable.str "hey"]))

/-- A class (identity 3) registered with `isSingleton: false`. -/
def stN : FactorySt :=
  assembleItem annNone newFactory (ToAssemble.classItem 3 (some false) none)

/-- A class (identity 5) whose declared dependency is never registered. -/
def stBad : FactorySt :=
  assembleItem annNone newFactory
    (ToAssemble.classItem 5 none (some [Injectable.str "missing"]))

/-- A container whose singleton cache is empty satisfies the invariant. -/
theorem cacheOK_of_singletons_nil {st : FactorySt} (h : st.singletons = []) :
    CacheOK st := by
  intro k v hm
  rw [h] at hm
  simp [mapGet] at hm

/-! ## Witnesses: each claim theorem applied at a concrete container -/

/-- Witness for C1 at `stC`: class 7's two dependencies are resolved in
declaration order and passed positionally. -/
theorem c1_witness :
    ∃ vs stMid,
      SeqResolves annNone 4 (logEv stC (Event.resolve (Injectable.cls 7)))
        [Injectable.str "a", Injectable.str "b"] vs stMid ∧
      Value.obj 7 0 [Value.lit "A", Value.lit "B"] = Value.obj 7 stMid.nextStamp vs :=
  (c1_dependencies_in_declaration_order annNone 4 stC
      ((get annNone 5 stC (Injectable.cls 7)).2) (Injectable.cls 7)
      (Value.obj 7 0 [Value.lit "A", Value.lit "B"])).1
    7 none [Injectable.str "a", Injectable.str "b"] rfl (Or.inr rfl) rfl

/-- Witness for C2 at `stC`: the constructed instance is cached and every
later `get` returns it unchanged. -/
theorem c2_witness :
    mapGet ((get annNone 5 stC (Injectable.cls 7)).2).singletons (Injectable.cls 7)
        = some (Value.obj 7 0 [Value.lit "A", Value.lit "B"]) ∧
    ∀ f2 : Nat,
      get annNone (f2 + 1) ((get annNone 5 stC (Injectable.cls 7)).2) (Injectable.cls 7)
        = (Except.ok (Value.obj 7 0 [Value.lit "A", Value.lit "B"]),
           logEv ((get annNone 5 stC (Injectable.cls 7)).2)
             (Event.resolve (Injectable.cls 7))) :=
  c2_singleton_cached_and_reused annNone 4 stC ((get annNone 5 stC (Injectable.cls 7)).2)
    (Injectable.cls 7) 7 none (some [Injectable.str "a", Injectable.str "b"])
    (Value.obj 7 0 [Value.lit "A", Value.lit "B"])
    (cacheOK_of_singletons_nil rfl) rfl (by simp) rfl

/-- Witness for C3 at `stC` and an unregistered token. -/
theorem c3_witness :
    ((get annNone 5 stC (Injectable.str "zzz")).1
        = Except.error (Err.notRegistered (Injectable.str "zzz")
            (errMsg (Injectable.str "zzz"))) ↔
      (findEntry stC.registry (Injectable.str "zzz") = none ∧
        autoMeta annNone (Injectable.str "zzz") = none)) ∧
    ∃ a b, errMsg (Injectable.str "zzz") = a ++ stringify (Injectable.str "zzz") ++ b :=
  c3_notRegistered_iff_unmatched annNone 4 stC (Injectable.str "zzz")

/-- Witness for C4 at `stValue`. -/
theorem c4_witness :
    get annNone 5 stValue (Injectable.str "hello")
        = (Except.ok (Value.lit "world"),
           logEv stValue (Event.resolve (Injectable.str "hello"))) ∧
    (logEv stValue (Event.resolve (Injectable.str "hello"))).registry
        = stValue.registry ∧
    (logEv stValue (Event.resolve (Injectable.str "hello"))).singletons
        = stValue.singletons ∧
    (logEv stValue (Event.resolve (Injectable.str "hello"))).nextStamp
        = stValue.nextStamp :=
  c4_value_entry_returns_stored annNone 4 stValue (Injectable.str "hello") "hello"
    (Value.lit "world") rfl

/-- Witness for C5 at `stFn`. -/
theorem c5_witness :
    ∃ vs stMid,
      SeqResolves annNone 4 (logEv stFn (Event.resolve (Injectable.fn 3)))
        [Injectable.str "hey"] vs stMid ∧
      Value.res 3 0 [Value.lit "ho"] = Value.res 3 stMid.nextStamp vs ∧
      (get annNone 5 stFn (Injectable.fn 3)).2
        = { stMid with nextStamp := stMid.nextStamp + 1,
                       trace := Event.invoke 3 vs :: stMid.trace } ∧
      ((get annNone 5 stFn (Injectable.fn 3)).2).singletons = stMid.singletons ∧
      ∀ f2 v2 st2,
        get annNone (f2 + 1) ((get annNone 5 stFn (Injectable.fn 3)).2)
            (Injectable.fn 3) = (Except.ok v2, st2) →
        v2 ≠ Value.res 3 0 [Value.lit "ho"] :=
  c5_function_entry_reinvoked annNone 4 stFn ((get annNone 5 stFn (Injectable.fn 3)).2)
    (Injectable.fn 3) 3 (some [Injectable.str "hey"]) (Value.res 3 0 [Value.lit "ho"])
    rfl rfl

/-- Witness for C6 at `stN`. -/
theorem c6_witness :
    ∃ vs stMid,
      SeqResolves annNone 4 (logEv stN (Event.resolve (Injectable.cls 3))) [] vs stMid ∧
      Value.obj 3 0 [] = Value.obj 3 stMid.nextStamp vs ∧
      (get annNone 5 stN (Injectable.cls 3)).2
        = { stMid with nextStamp := stMid.nextStamp + 1,
                       trace := Event.construct 3 vs :: stMid.trace } ∧
      mapGet ((get annNone 5 stN (Injectable.cls 3)).2).singletons (Injectable.cls 3)
        = mapGet stN.singletons (Injectable.cls 3) ∧
      ∀ f2 v2 st2,
        get annNone (f2 + 1) ((get annNone 5 stN (Injectable.cls 3)).2)
            (Injectable.cls 3) = (Except.ok v2, st2) →
        v2 ≠ Value.obj 3 0 [] :=
  c6_nonsingleton_fresh_instances annNone 4 stN ((get annNone 5 stN (Injectable.cls 3)).2)
    (Injectable.cls 3) 3 none (Value.obj 3 0 []) rfl rfl

/-- Witness for C7: class 9 is annotated but unregistered; `get` appends
the synthesized entry and behaves as if it had been registered. -/
theorem c7_witness :
    findEntry (pushEntry newFactory
        (Entry.clsE (Injectable.cls 9) 9 none (some [Injectable.str "hello"]))).registry
        (Injectable.cls 9)
      = some (Entry.clsE (Injectable.cls 9) 9 none (some [Injectable.str "hello"])) ∧
    get annW 5 newFactory (Injectable.cls 9)
      = get annW 5 (pushEntry newFactory
          (Entry.clsE (Injectable.cls 9) 9 none (some [Injectable.str "hello"])))
          (Injectable.cls 9) :=
  (c7_auto_registration_for_annotated_classes annW 4 newFactory (Injectable.cls 9)
      rfl).1 9 [Injectable.str "hello"] rfl rfl

/-- Witness for C8 at `stValue` with a shadowed duplicate for `"hello"`. -/
theorem c8_witness :
    (get annNone 5 (pushEntry stValue
        (Entry.valE (Injectable.str "hello") "hello" (Value.lit "SHADOWED")))
        (Injectable.str "hello")).1
      = (get annNone 5 stValue (Injectable.str "hello")).1 ∧
    ((get annNone 5 (pushEntry stValue
        (Entry.valE (Injectable.str "hello") "hello" (Value.lit "SHADOWED")))
        (Injectable.str "hello")).2).singletons
      = ((get annNone 5 stValue (Injectable.str "hello")).2).singletons ∧
    ((get annNone 5 (pushEntry stValue
        (Entry.valE (Injectable.str "hello") "hello" (Value.lit "SHADOWED")))
        (Injectable.str "hello")).2).nextStamp
      = ((get annNone 5 stValue (Injectable.str "hello")).2).nextStamp ∧
    ((get annNone 5 (pushEntry stValue
        (Entry.valE (Injectable.str "hello") "hello" (Value.lit "SHADOWED")))
        (Injectable.str "hello")).2).trace
      = ((get annNone 5 stValue (Injectable.str "hello")).2).trace :=
  (c8_first_match_wins_later_duplicates_shadowed annNone).2 stValue
    (Entry.valE (Injectable.str "hello") "hello" (Value.lit "SHADOWED")) 5
    (Injectable.str "hello")
    ⟨Entry.valE (Injectable.str "hello") "hello" (Value.lit "world"), rfl⟩

/-- Witness for C9 at `stBad`: the dependency failure propagates with the
dependency-resolution state, before any construction or cache write. -/
theorem c9_witness :
    get annNone 5 stBad (Injectable.cls 5)
      = (Except.error (Err.notRegistered (Injectable.str "missing")
            (errMsg (Injectable.str "missing"))),
         logEv (logEv stBad (Event.resolve (Injectable.cls 5)))
           (Event.resolve (Injectable.str "missing"))) :=
  c9_cache_invariant_and_failure_propagation.2.2.2 annNone 4 stBad
    (logEv (logEv stBad (Event.resolve (Injectable.cls 5)))
      (Event.resolve (Injectable.str "missing")))
    (Injectable.cls 5) 5 none (some [Injectable.str "missing"])
    (Err.notRegistered (Injectable.str "missing") (errMsg (Injectable.str "missing")))
    rfl rfl rfl

/-- Witness for C10 at `stC` (fuel 6): the entry with no `isSingleton`
field behaves as a singleton. -/
theorem c10_witness :
    mapGet ((get annNone 6 stC (Injectable.cls 7)).2).singletons (Injectable.cls 7)
        = some (Value.obj 7 0 [Value.lit "A", Value.lit "B"]) ∧
    ∀ f2 : Nat,
      get annNone (f2 + 1) ((get annNone 6 stC (Injectable.cls 7)).2) (Injectable.cls 7)
        = (Except.ok (Value.obj 7 0 [Value.lit "A", Value.lit "B"]),
           logEv ((get annNone 6 stC (Injectable.cls 7)).2)
             (Event.resolve (Injectable.cls 7))) :=
  (c10_shorthand_and_auto_entries_default_to_singleton annNone).2.2 5 stC
    ((get annNone 6 stC (Injectable.cls 7)).2) (Injectable.cls 7) 7
    (some [Injectable.str "a", Injectable.str "b"])
    (Value.obj 7 0 [Value.lit "A", Value.lit "B"])
    (cacheOK_of_singletons_nil rfl) rfl rfl

end Assemble
